import Mathlib

/-!
Verification of the SlidingWindowVisualizer window-evaluation engine.

The definitions below are a shallow embedding of `calculate_step`
(src/app.py, `/api/calculate_step` handler) and of the Python
algorithm templates `sliding_window_maximum`,
`variable_window_sum_target` and `variable_window_average_threshold`
that the same file carries in its code-template catalog.

Python dynamic values that can appear in the `elements` list are
modelled by `PyVal` (a JSON element is either a number or a string);
operations that would raise a `TypeError` in Python (summing strings,
comparing an int with a string, joining ints) return `none`, which the
handler's catch-all `except` turns into the generic calculation error,
exactly as in the source.  Python's exact ints are `Int`; the single
float division (`avg`) is modelled with `Rat` (exact division, which
is what both the code and its spec describe).  The `avg` description
renders the exact rational where the source formats two decimals; no
other part of the development depends on that rendering.
-/

/-- A dynamic (JSON) value appearing in the `elements` list:
an integer or a string. -/
inductive PyVal where
  | int (n : Int)
  | str (s : String)
deriving DecidableEq, Repr

/-- Python `str(v)` for the values we model. -/
def PyVal.toStr : PyVal → String
  | .int n => toString n
  | .str s => s

/-- Python `sum(window)`: the integer sum, or `none` (TypeError) if any
element is a string. -/
def pySum : List PyVal → Option Int
  | [] => some 0
  | .int n :: xs => (pySum xs).map (fun s => n + s)
  | .str _ :: _ => none

/-- Python `<` on dynamic values: defined within one type (ints by value,
strings lexicographically), `none` (TypeError) across types. -/
def pyLt : PyVal → PyVal → Option Bool
  | .int a, .int b => some (decide (a < b))
  | .str a, .str b => some (decide (a < b))
  | _, _ => none

/-- The accumulator loop of Python `max(window)`: keep the current value
unless the next element compares strictly greater. -/
def pyMaxAux : PyVal → List PyVal → Option PyVal
  | acc, [] => some acc
  | acc, y :: ys =>
    match pyLt acc y with
    | none => none
    | some true => pyMaxAux y ys
    | some false => pyMaxAux acc ys

/-- Python `max(window)` (window non-empty in every use). -/
def pyMax : List PyVal → Option PyVal
  | [] => none
  | x :: xs => pyMaxAux x xs

/-- The accumulator loop of Python `min(window)`. -/
def pyMinAux : PyVal → List PyVal → Option PyVal
  | acc, [] => some acc
  | acc, y :: ys =>
    match pyLt y acc with
    | none => none
    | some true => pyMinAux y ys
    | some false => pyMinAux acc ys

/-- Python `min(window)`. -/
def pyMin : List PyVal → Option PyVal
  | [] => none
  | x :: xs => pyMinAux x xs

/-- Python `''.join(window)`: concatenation when every element is a
string, `none` (TypeError) otherwise. -/
def pyJoin : List PyVal → Option String
  | [] => some ""
  | .str s :: xs => (pyJoin xs).map (fun t => s ++ t)
  | .int _ :: _ => none

/-- The duplicate-collection loop of the `longest_substring` branch:
`for char in window: if char in seen: duplicates.append(char); seen.add(char)`. -/
def dupScan : List PyVal → List PyVal → List PyVal
  | _, [] => []
  | seen, x :: xs =>
    if x ∈ seen then x :: dupScan (x :: seen) xs
    else dupScan (x :: seen) xs

/-- The result value of a `calculate_step` response: a Python int,
a Python float (exact rational here), or a string (max/min over a
string window). -/
inductive ResVal where
  | int (n : Int)
  | num (q : Rat)
  | str (s : String)
deriving DecidableEq, Repr

/-- Lift a window element to a result value (max/min return an element). -/
def PyVal.toRes : PyVal → ResVal
  | .int n => ResVal.int n
  | .str s => ResVal.str s

/-- A `calculate_step` JSON response: either the success body
`{result, window, description}` or an error body `{error}`. -/
inductive StepResponse where
  | ok (result : ResVal) (window : List PyVal) (description : String)
  | error (msg : String)
deriving DecidableEq, Repr

/-- The `result` field of a response, when the response is a success. -/
def StepResponse.resultOf : StepResponse → Option ResVal
  | .ok r _ _ => some r
  | .error _ => none

/-- The `window` field of a response, when the response is a success. -/
def StepResponse.windowOf : StepResponse → Option (List PyVal)
  | .ok _ w _ => some w
  | .error _ => none

/-- The `description` field of a response, when the response is a success. -/
def StepResponse.descOf : StepResponse → Option String
  | .ok _ _ d => some d
  | .error _ => none

/-- The `error` field of a response, when the response is an error. -/
def StepResponse.errorOf : StepResponse → Option String
  | .ok _ _ _ => none
  | .error m => some m

/-- Comma-space joining used by the description strings. -/
def joinComma (l : List String) : String := String.intercalate ", " l

/-- Plus joining used by the sum/avg description strings. -/
def joinPlus (l : List String) : String := String.intercalate " + " l

/-- Shallow embedding of the `/api/calculate_step` handler
(src/app.py lines 229-309).  `algorithm` and `pattern` are `Option`s
because the handler reads them with `data.get('algorithm', 'sum')` and
`data.get('pattern', '')`.  Validation, slicing, the per-algorithm
dispatch and every message string follow the source; branches where
Python would raise a TypeError inside the `try` return the handler's
generic calculation error. -/
def calculate_step (elements : List PyVal) (window_start window_size : Int)
    (algorithm : Option String) (pattern : Option String) : StepResponse :=
  if elements = [] ∨ window_start < 0 ∨ window_size ≤ 0 then
    .error "Invalid parameters"
  else if (elements.length : Int) < window_start + window_size then
    .error "Window extends beyond array bounds"
  else
    let window := (elements.drop window_start.toNat).take window_size.toNat
    let alg := algorithm.getD "sum"
    if alg = "sum" then
      match pySum window with
      | none => .error "An error occurred while calculating"
      | some s =>
        .ok (.int s) window
          ("Sum of window: " ++ joinPlus (window.map PyVal.toStr) ++ " = " ++ toString s)
    else if alg = "max" then
      match pyMax window with
      | none => .error "An error occurred while calculating"
      | some m =>
        .ok m.toRes window
          ("Maximum in window: max(" ++ joinComma (window.map PyVal.toStr) ++ ") = " ++ m.toStr)
    else if alg = "min" then
      match pyMin window with
      | none => .error "An error occurred while calculating"
      | some m =>
        .ok m.toRes window
          ("Minimum in window: min(" ++ joinComma (window.map PyVal.toStr) ++ ") = " ++ m.toStr)
    else if alg = "avg" then
      match pySum window with
      | none => .error "An error occurred while calculating"
      | some s =>
        .ok (.num ((s : Rat) / (window.length : Rat))) window
          ("Average of window: (" ++ joinPlus (window.map PyVal.toStr) ++ ") / "
            ++ toString window.length ++ " = " ++ toString ((s : Rat) / (window.length : Rat)))
    else if alg = "longest_substring" then
      match pyJoin window with
      | none => .error "An error occurred while calculating"
      | some ws =>
        if window.dedup.length = window.length then
          .ok (.int window.length) window
            ("Window \x27" ++ ws ++ "\x27 has no repeating characters. Length: "
              ++ toString window.length)
        else
          .ok (.int 0) window
            ("Window \x27" ++ ws ++ "\x27 has repeating characters: "
              ++ joinComma ((dupScan [] window).dedup.map PyVal.toStr))
    else if alg = "permutation_in_string" then
      match pyJoin window with
      | none => .error "An error occurred while calculating"
      | some ws =>
        let pat := pattern.getD ""
        if ws.length = pat.length then
          if (ws.toList : Multiset Char) = (pat.toList : Multiset Char) then
            .ok (.int 1) window
              ("Window \x27" ++ ws ++ "\x27 is a permutation of pattern \x27" ++ pat ++ "\x27 ✓")
          else
            .ok (.int 0) window
              ("Window \x27" ++ ws ++ "\x27 is not a permutation of pattern \x27" ++ pat ++ "\x27")
        else
          .ok (.int 0) window
            ("Window \x27" ++ ws ++ "\x27 (length " ++ toString ws.length
              ++ ") doesn\x27t match pattern length " ++ toString pat.length)
    else
      .error "Unknown algorithm"

example :
    calculate_step [.int 1, .int 2, .int 3, .int 4, .int 5] 0 3 (some "sum") none
      = .ok (.int 6) [.int 1, .int 2, .int 3] "Sum of window: 1 + 2 + 3 = 6" := by
  decide

/-! ### Aggregate helper lemmas (integer windows) -/

theorem pySum_map_int (l : List Int) : pySum (l.map PyVal.int) = some l.sum := by
  induction l with
  | nil => rfl
  | cons a t ih => simp [pySum, ih]

theorem pyMaxAux_map_int (l : List Int) (a : Int) :
    ∃ m, pyMaxAux (.int a) (l.map PyVal.int) = some (.int m) ∧
      (m = a ∨ m ∈ l) ∧ a ≤ m ∧ ∀ x ∈ l, x ≤ m := by
  induction l generalizing a with
  | nil => exact ⟨a, rfl, Or.inl rfl, le_refl a, by simp⟩
  | cons b t ih =>
    by_cases hab : a < b
    · obtain ⟨m, hm, hmem, hle, hbd⟩ := ih b
      refine ⟨m, ?_, ?_, le_of_lt (lt_of_lt_of_le hab hle), ?_⟩
      · simp [pyMaxAux, pyLt, hab, hm]
      · rcases hmem with h | h
        · exact Or.inr (by simp [h])
        · exact Or.inr (by simp [h])
      · intro x hx
        rcases List.mem_cons.mp hx with h | h
        · exact h ▸ hle
        · exact hbd x h
    · obtain ⟨m, hm, hmem, hle, hbd⟩ := ih a
      refine ⟨m, ?_, ?_, hle, ?_⟩
      · simp [pyMaxAux, pyLt, hab, hm]
      · rcases hmem with h | h
        · exact Or.inl h
        · exact Or.inr (by simp [h])
      · intro x hx
        rcases List.mem_cons.mp hx with h | h
        · exact h ▸ le_trans (le_of_not_lt hab) hle
        · exact hbd x h

theorem pyMax_map_int (l : List Int) (hne : l ≠ []) :
    ∃ m, pyMax (l.map PyVal.int) = some (.int m) ∧ m ∈ l ∧ ∀ x ∈ l, x ≤ m := by
  match l, hne with
  | a :: t, _ =>
    obtain ⟨m, hm, hmem, hle, hbd⟩ := pyMaxAux_map_int t a
    refine ⟨m, by simpa [pyMax] using hm, ?_, ?_⟩
    · rcases hmem with h | h
      · simp [h]
      · simp [h]
    · intro x hx
      rcases List.mem_cons.mp hx with h | h
      · exact h ▸ hle
      · exact hbd x h

theorem pyMinAux_map_int (l : List Int) (a : Int) :
    ∃ m, pyMinAux (.int a) (l.map PyVal.int) = some (.int m) ∧
      (m = a ∨ m ∈ l) ∧ m ≤ a ∧ ∀ x ∈ l, m ≤ x := by
  induction l generalizing a with
  | nil => exact ⟨a, rfl, Or.inl rfl, le_refl a, by simp⟩
  | cons b t ih =>
    by_cases hab : b < a
    · obtain ⟨m, hm, hmem, hle, hbd⟩ := ih b
      refine ⟨m, ?_, ?_, le_of_lt (lt_of_le_of_lt hle hab), ?_⟩
      · simp [pyMinAux, pyLt, hab, hm]
      · rcases hmem with h | h
        · exact Or.inr (by simp [h])
        · exact Or.inr (by simp [h])
      · intro x hx
        rcases List.mem_cons.mp hx with h | h
        · exact h ▸ hle
        · exact hbd x h
    · obtain ⟨m, hm, hmem, hle, hbd⟩ := ih a
      refine ⟨m, ?_, ?_, hle, ?_⟩
      · simp [pyMinAux, pyLt, hab, hm]
      · rcases hmem with h | h
        · exact Or.inl h
        · exact Or.inr (by simp [h])
      · intro x hx
        rcases List.mem_cons.mp hx with h | h
        · exact h ▸ le_trans hle (le_of_not_lt hab)
        · exact hbd x h

theorem pyMin_map_int (l : List Int) (hne : l ≠ []) :
    ∃ m, pyMin (l.map PyVal.int) = some (.int m) ∧ m ∈ l ∧ ∀ x ∈ l, m ≤ x := by
  match l, hne with
  | a :: t, _ =>
    obtain ⟨m, hm, hmem, hle, hbd⟩ := pyMinAux_map_int t a
    refine ⟨m, by simpa [pyMin] using hm, ?_, ?_⟩
    · rcases hmem with h | h
      · simp [h]
      · simp [h]
    · intro x hx
      rcases List.mem_cons.mp hx with h | h
      · exact h ▸ hle
      · exact hbd x h

/-- C1: on inputs meeting the fixed-window preconditions, `sum` returns
the arithmetic sum of `elements[window_start : window_start + window_size]`,
`max`/`min` return the maximum/minimum of that slice, and `avg` returns
the slice sum divided by `window_size`. -/
theorem calculate_step_fixed_aggregates (l : List Int) (ws wsz : Int)
    (hws : 0 ≤ ws) (hwsz : 0 < wsz) (hb : ws + wsz ≤ (l.length : Int)) :
    ((calculate_step (l.map .int) ws wsz (some "sum") none).resultOf
        = some (.int ((l.drop ws.toNat).take wsz.toNat).sum)) ∧
    (∃ m, m ∈ (l.drop ws.toNat).take wsz.toNat ∧
      (∀ x ∈ (l.drop ws.toNat).take wsz.toNat, x ≤ m) ∧
      (calculate_step (l.map .int) ws wsz (some "max") none).resultOf = some (.int m)) ∧
    (∃ m, m ∈ (l.drop ws.toNat).take wsz.toNat ∧
      (∀ x ∈ (l.drop ws.toNat).take wsz.toNat, m ≤ x) ∧
      (calculate_step (l.map .int) ws wsz (some "min") none).resultOf = some (.int m)) ∧
    ((calculate_step (l.map .int) ws wsz (some "avg") none).resultOf
        = some (.num ((((l.drop ws.toNat).take wsz.toNat).sum : Rat) / (wsz : Rat)))) := by
  have hlne : l ≠ [] := by
    intro h
    subst h
    simp at hb
    omega
  have h1 : ¬(l.map PyVal.int = [] ∨ ws < 0 ∨ wsz ≤ 0) := by
    simp [hlne]
    omega
  have h2 : ¬((((l.map PyVal.int).length : Nat) : Int) < ws + wsz) := by
    simp
    omega
  have hwin : ((l.map PyVal.int).drop ws.toNat).take wsz.toNat
      = ((l.drop ws.toNat).take wsz.toNat).map PyVal.int := by
    simp [List.map_take, List.map_drop]
  have hbn : ws.toNat + wsz.toNat ≤ l.length := by omega
  have hlen : ((l.drop ws.toNat).take wsz.toNat).length = wsz.toNat := by
    simp [List.length_take, List.length_drop]
    omega
  have hne : (l.drop ws.toNat).take wsz.toNat ≠ [] := by
    intro h
    rw [h] at hlen
    simp at hlen
    omega
  have hcast : ((wsz.toNat : Nat) : Rat) = ((wsz : Int) : Rat) := by
    have : ((wsz.toNat : Nat) : Int) = wsz := Int.toNat_of_nonneg (le_of_lt hwsz)
    exact_mod_cast congrArg (fun z : Int => (z : Rat)) this
  refine ⟨?_, ?_, ?_, ?_⟩
  · simp only [calculate_step, if_neg h1, if_neg h2]
    rw [hwin, pySum_map_int]
    rfl
  · obtain ⟨m, hm, hmem, hbd⟩ := pyMax_map_int _ hne
    refine ⟨m, hmem, hbd, ?_⟩
    simp only [calculate_step, if_neg h1, if_neg h2]
    rw [hwin, hm]
    rfl
  · obtain ⟨m, hm, hmem, hbd⟩ := pyMin_map_int _ hne
    refine ⟨m, hmem, hbd, ?_⟩
    simp only [calculate_step, if_neg h1, if_neg h2]
    rw [hwin, hm]
    rfl
  · simp only [calculate_step, if_neg h1, if_neg h2]
    rw [hwin, pySum_map_int]
    simp only [StepResponse.resultOf, List.length_map, hlen, hcast]
    rfl

/-- Witness for C1 at `elements=[1,2,3,4,5], start=0, size=3`
(spec Scenario 1): `sum` gives `6`. -/
theorem calculate_step_fixed_aggregates_witness :
    (calculate_step (([1,2,3,4,5] : List Int).map .int) 0 3 (some "sum") none).resultOf
        = some (.int 6) :=
  (calculate_step_fixed_aggregates [1,2,3,4,5] 0 3 (by decide) (by decide) (by decide)).1

/-! ### Shared dispatch-skeleton lemmas -/

theorem calculate_step_invalid (elements : List PyVal) (ws wsz : Int)
    (alg pat : Option String)
    (h : elements = [] ∨ ws < 0 ∨ wsz ≤ 0) :
    calculate_step elements ws wsz alg pat = .error "Invalid parameters" := by
  simp only [calculate_step, if_pos h]

theorem calculate_step_bounds (elements : List PyVal) (ws wsz : Int)
    (alg pat : Option String)
    (hne : elements ≠ []) (hws : 0 ≤ ws) (hwsz : 0 < wsz)
    (h : (elements.length : Int) < ws + wsz) :
    calculate_step elements ws wsz alg pat = .error "Window extends beyond array bounds" := by
  have h1 : ¬(elements = [] ∨ ws < 0 ∨ wsz ≤ 0) := by
    simp [hne]
    omega
  simp only [calculate_step, if_neg h1, if_pos h]

theorem calculate_step_sum_eval (l : List Int) (ws wsz : Int)
    (hws : 0 ≤ ws) (hwsz : 0 < wsz) (hb : ws + wsz ≤ (l.length : Int)) :
    calculate_step (l.map .int) ws wsz (some "sum") none
      = .ok (.int ((l.drop ws.toNat).take wsz.toNat).sum)
          (((l.drop ws.toNat).take wsz.toNat).map PyVal.int)
          ("Sum of window: "
            ++ joinPlus ((((l.drop ws.toNat).take wsz.toNat).map PyVal.int).map PyVal.toStr)
            ++ " = " ++ toString ((l.drop ws.toNat).take wsz.toNat).sum) := by
  have hlne : l ≠ [] := by
    intro h
    subst h
    simp at hb
    omega
  have h1 : ¬(l.map PyVal.int = [] ∨ ws < 0 ∨ wsz ≤ 0) := by
    simp [hlne]
    omega
  have h2 : ¬((((l.map PyVal.int).length : Nat) : Int) < ws + wsz) := by
    simp
    omega
  have hwin : ((l.map PyVal.int).drop ws.toNat).take wsz.toNat
      = ((l.drop ws.toNat).take wsz.toNat).map PyVal.int := by
    simp [List.map_take, List.map_drop]
  simp only [calculate_step, if_neg h1, if_neg h2]
  rw [hwin, pySum_map_int]
  rfl

/-- C9: every successful `calculate_step` response, for every algorithm
tag, carries exactly the slice
`elements[window_start : window_start + window_size]` as its `window`,
whose length is `window_size`. -/
theorem calculate_step_window_invariant (elements : List PyVal) (ws wsz : Int)
    (alg pat : Option String) (r : ResVal) (w : List PyVal) (d : String)
    (h : calculate_step elements ws wsz alg pat = .ok r w d) :
    w = (elements.drop ws.toNat).take wsz.toNat ∧ (w.length : Int) = wsz := by
  by_cases h1 : elements = [] ∨ ws < 0 ∨ wsz ≤ 0
  · rw [calculate_step_invalid elements ws wsz alg pat h1] at h
    cases h
  · by_cases h2 : (elements.length : Int) < ws + wsz
    · rw [calculate_step, if_neg h1, if_pos h2] at h
      cases h
    · rw [calculate_step, if_neg h1, if_neg h2] at h
      simp only [] at h
      have hlen : ((elements.drop ws.toNat).take wsz.toNat).length = wsz.toNat := by
        simp only [List.length_take, List.length_drop]
        push_neg at h1 h2
        omega
      have hwz : ((wsz.toNat : Nat) : Int) = wsz := by
        push_neg at h1
        omega
      suffices hw : w = (elements.drop ws.toNat).take wsz.toNat by
        refine ⟨hw, ?_⟩
        rw [hw, hlen, hwz]
      split_ifs at h
      all_goals (try (split at h))
      all_goals (try (split at h))
      all_goals (try (split at h))
      all_goals (cases h)
      all_goals rfl

/-- Witness for C9 at a concrete successful call. -/
theorem calculate_step_window_invariant_witness :
    [PyVal.int 1, PyVal.int 2]
        = (([PyVal.int 1, PyVal.int 2, PyVal.int 3].drop (0:Int).toNat).take (2:Int).toNat) ∧
    (([PyVal.int 1, PyVal.int 2] : List PyVal).length : Int) = 2 :=
  calculate_step_window_invariant [PyVal.int 1, PyVal.int 2, PyVal.int 3] 0 2 (some "sum") none
    (.int 3) [PyVal.int 1, PyVal.int 2] "Sum of window: 1 + 2 = 3" (by decide)

/-- C7: with non-empty elements, `window_start >= 0` and
`window_size > 0`, a window touching the end exactly
(`start + size = length`) is accepted and evaluated, while
`start + size >= length + 1` is rejected with the bounds error
(never clamped). -/
theorem calculate_step_boundary (l : List Int) (ws wsz : Int)
    (hws : 0 ≤ ws) (hwsz : 0 < wsz) (hexact : ws + wsz = (l.length : Int)) :
    (∃ r w d, calculate_step (l.map .int) ws wsz (some "sum") none = .ok r w d) ∧
    (∀ ws' wsz' : Int, 0 ≤ ws' → 0 < wsz' → (l.length : Int) + 1 ≤ ws' + wsz' →
      ∀ alg pat : Option String,
        calculate_step (l.map .int) ws' wsz' alg pat
          = .error "Window extends beyond array bounds") := by
  have hlne : l ≠ [] := by
    intro h
    subst h
    simp at hexact
    omega
  constructor
  · exact ⟨_, _, _, calculate_step_sum_eval l ws wsz hws hwsz (le_of_eq hexact)⟩
  · intro ws' wsz' hws' hwsz' hb alg pat
    refine calculate_step_bounds _ ws' wsz' alg pat ?_ hws' hwsz' ?_
    · simp [hlne]
    · simp only [List.length_map]
      omega

/-- Witness for C7 at `elements=[1,2], start=1, size=1` (touches the end)
and `start=1, size=2` (one past the end). -/
theorem calculate_step_boundary_witness :
    (∃ r w d, calculate_step (([1,2] : List Int).map .int) 1 1 (some "sum") none = .ok r w d) ∧
    calculate_step (([1,2] : List Int).map .int) 1 2 (some "sum") none
      = .error "Window extends beyond array bounds" := by
  have h := calculate_step_boundary [1,2] 1 1 (by decide) (by decide) (by decide)
  exact ⟨h.1, h.2 1 2 (by decide) (by decide) (by decide) (some "sum") none⟩

/-- C8 counterexample: an empty sequence and a negative start produce
the *same* error message `'Invalid parameters'`, so the empty-sequence
error is not distinguishable from the negative-start/non-positive-size
error as the claim asserts. -/
theorem calculate_step_error_distinct_counterexample :
    calculate_step [] 0 1 (some "sum") none = .error "Invalid parameters" ∧
    calculate_step [.int 1] (-1) 1 (some "sum") none = .error "Invalid parameters" ∧
    (calculate_step [] 0 1 (some "sum") none).errorOf
      = (calculate_step [.int 1] (-1) 1 (some "sum") none).errorOf := by
  refine ⟨?_, ?_, ?_⟩ <;> rfl

/-- C8 (amended): `calculate_step` uses exactly two distinct error
messages for precondition violations — `'Window extends beyond array
bounds'` when a non-empty sequence with valid start/size has
`start + size > length`, and `'Invalid parameters'` shared by the
empty-sequence and the negative-start/non-positive-size violations. -/
theorem calculate_step_error_messages (elements : List PyVal) (ws wsz : Int)
    (alg pat : Option String) :
    (elements = [] ∨ ws < 0 ∨ wsz ≤ 0 →
      calculate_step elements ws wsz alg pat = .error "Invalid parameters") ∧
    (elements ≠ [] → 0 ≤ ws → 0 < wsz → (elements.length : Int) < ws + wsz →
      calculate_step elements ws wsz alg pat = .error "Window extends beyond array bounds") ∧
    "Invalid parameters" ≠ "Window extends beyond array bounds" := by
  refine ⟨fun h => calculate_step_invalid elements ws wsz alg pat h,
    fun hne hws hwsz hb => calculate_step_bounds elements ws wsz alg pat hne hws hwsz hb, ?_⟩
  decide

/-- Witness for the amended C8 at concrete violating inputs. -/
theorem calculate_step_error_messages_witness :
    calculate_step [] 0 1 (some "max") none = .error "Invalid parameters" ∧
    calculate_step [.int 5] 0 2 (some "max") none
      = .error "Window extends beyond array bounds" :=
  ⟨(calculate_step_error_messages [] 0 1 (some "max") none).1 (Or.inl rfl),
   (calculate_step_error_messages [.int 5] 0 2 (some "max") none).2.1
     (by decide) (by decide) (by decide) (by decide)⟩

/-- C10: an absent `algorithm` field defaults the selector to `'sum'`
(no UnknownAlgorithm error), returning the window sum on valid input,
while a present but unrecognized tag yields the `'Unknown algorithm'`
error. -/
theorem calculate_step_default_algorithm (l : List Int) (ws wsz : Int) (tag : String)
    (hws : 0 ≤ ws) (hwsz : 0 < wsz) (hb : ws + wsz ≤ (l.length : Int))
    (htag : tag ∉ (["sum", "max", "min", "avg", "longest_substring",
      "permutation_in_string"] : List String)) :
    (∀ (elements : List PyVal) (ws' wsz' : Int) (pat : Option String),
      calculate_step elements ws' wsz' none pat
        = calculate_step elements ws' wsz' (some "sum") pat) ∧
    ((calculate_step (l.map .int) ws wsz none none).resultOf
        = some (.int ((l.drop ws.toNat).take wsz.toNat).sum)) ∧
    (calculate_step (l.map .int) ws wsz (some tag) none = .error "Unknown algorithm") := by
  have hdef : ∀ (elements : List PyVal) (ws' wsz' : Int) (pat : Option String),
      calculate_step elements ws' wsz' none pat
        = calculate_step elements ws' wsz' (some "sum") pat := fun _ _ _ _ => rfl
  refine ⟨hdef, ?_, ?_⟩
  · rw [hdef, calculate_step_sum_eval l ws wsz hws hwsz hb]
    rfl
  · have hlne : l ≠ [] := by
      intro h
      subst h
      simp at hb
      omega
    have h1 : ¬(l.map PyVal.int = [] ∨ ws < 0 ∨ wsz ≤ 0) := by
      simp [hlne]
      omega
    have h2 : ¬((((l.map PyVal.int).length : Nat) : Int) < ws + wsz) := by
      simp
      omega
    simp only [List.mem_cons, List.mem_singleton] at htag
    push_neg at htag
    obtain ⟨t1, t2, t3, t4, t5, t6, -⟩ := htag
    simp only [calculate_step, if_neg h1, if_neg h2, Option.getD_some,
      if_neg t1, if_neg t2, if_neg t3, if_neg t4, if_neg t5, if_neg t6]

/-- Witness for C10: omitting the algorithm on `[1,2,3]`, start 0,
size 2 returns the sum 3; the tag `'median'` is rejected. -/
theorem calculate_step_default_algorithm_witness :
    ((calculate_step (([1,2,3] : List Int).map .int) 0 2 none none).resultOf
        = some (.int 3)) ∧
    calculate_step (([1,2,3] : List Int).map .int) 0 2 (some "median") none
      = .error "Unknown algorithm" := by
  have h := calculate_step_default_algorithm [1,2,3] 0 2 "median"
    (by decide) (by decide) (by decide) (by decide)
  exact ⟨h.2.1, h.2.2⟩

/-! ### String-window helper lemmas -/

theorem pyJoin_map_char (cs : List Char) :
    pyJoin (cs.map fun c => PyVal.str c.toString) = some (String.mk cs) := by
  induction cs with
  | nil => rfl
  | cons c t ih => simp [pyJoin, ih]; rfl

theorem dedup_length_eq_iff {α : Type} [DecidableEq α] (l : List α) :
    l.dedup.length = l.length ↔ l.Nodup := by
  constructor
  · intro h
    have := (List.dedup_sublist l).eq_of_length h
    rw [← this]
    exact l.nodup_dedup
  · intro h
    rw [List.dedup_eq_self.mpr h]

/-- Elements of the duplicate-collection loop's output: the values of
the window that have already been seen when encountered. -/
theorem mem_dupScan (x : PyVal) :
    ∀ (l seen : List PyVal), x ∈ dupScan seen l ↔
      (x ∈ seen ∧ x ∈ l) ∨ 2 ≤ l.count x := by
  intro l
  induction l with
  | nil => simp [dupScan]
  | cons a t ih =>
    intro seen
    by_cases hx : x = a
    · subst hx
      by_cases ha : x ∈ seen
      · simp [dupScan, if_pos ha, ha]
      · have hcnt : (x :: t).count x = t.count x + 1 := List.count_cons_self x t
        simp only [dupScan, if_neg ha, ih, hcnt]
        constructor
        · rintro (⟨-, hxt⟩ | h2)
          · have h1 : 0 < t.count x := List.count_pos_iff.mpr hxt
            right
            omega
          · right
            omega
        · rintro (⟨hse, -⟩ | h2)
          · exact absurd hse ha
          · by_cases hxt : x ∈ t
            · exact Or.inl ⟨List.mem_cons_self x seen, hxt⟩
            · have h0 : t.count x = 0 := List.count_eq_zero.mpr hxt
              omega
    · have hcnt : (a :: t).count x = t.count x := List.count_cons_of_ne hx t
      by_cases ha : a ∈ seen
      · simp only [dupScan, if_pos ha, List.mem_cons, ih, hcnt]
        simp [hx]
      · simp only [dupScan, if_neg ha, ih, hcnt, List.mem_cons]
        simp [hx]

/-- The image of a character window inside the dynamic `elements` list. -/
def charWin (cs : List Char) (ws wsz : Int) : List PyVal :=
  ((cs.drop ws.toNat).take wsz.toNat).map fun c => PyVal.str c.toString

theorem charWin_inj : Function.Injective (fun c : Char => PyVal.str c.toString) := by
  intro a b h
  simp only [PyVal.str.injEq] at h
  simpa [Char.toString] using congrArg String.data h

theorem calculate_step_perm_eval (cs : List Char) (ws wsz : Int) (p : String)
    (hws : 0 ≤ ws) (hwsz : 0 < wsz) (hb : ws + wsz ≤ (cs.length : Int)) :
    calculate_step (cs.map fun c => PyVal.str c.toString) ws wsz
        (some "permutation_in_string") (some p)
      = if (String.mk ((cs.drop ws.toNat).take wsz.toNat)).length = p.length then
          if ((String.mk ((cs.drop ws.toNat).take wsz.toNat)).toList : Multiset Char)
              = (p.toList : Multiset Char) then
            .ok (.int 1) (charWin cs ws wsz)
              ("Window \x27" ++ String.mk ((cs.drop ws.toNat).take wsz.toNat)
                ++ "\x27 is a permutation of pattern \x27" ++ p ++ "\x27 ✓")
          else
            .ok (.int 0) (charWin cs ws wsz)
              ("Window \x27" ++ String.mk ((cs.drop ws.toNat).take wsz.toNat)
                ++ "\x27 is not a permutation of pattern \x27" ++ p ++ "\x27")
        else
          .ok (.int 0) (charWin cs ws wsz)
            ("Window \x27" ++ String.mk ((cs.drop ws.toNat).take wsz.toNat)
              ++ "\x27 (length " ++ toString (String.mk ((cs.drop ws.toNat).take wsz.toNat)).length
              ++ ") doesn\x27t match pattern length " ++ toString p.length) := by
  have hlne : cs ≠ [] := by
    intro h
    subst h
    simp at hb
    omega
  have h1 : ¬((cs.map fun c => PyVal.str c.toString) = [] ∨ ws < 0 ∨ wsz ≤ 0) := by
    simp [hlne]
    omega
  have h2 : ¬((((cs.map fun c => PyVal.str c.toString).length : Nat) : Int) < ws + wsz) := by
    simp
    omega
  have hwin : ((cs.map fun c => PyVal.str c.toString).drop ws.toNat).take wsz.toNat
      = charWin cs ws wsz := by
    simp [charWin, List.map_take, List.map_drop]
  simp only [calculate_step, if_neg h1, if_neg h2]
  rw [hwin, charWin, pyJoin_map_char]
  rfl

/-- C4: in the permutation-match check, a window/pattern length mismatch
yields result `0` with the length-mismatch description; with equal
lengths the result is `1` exactly when the character multisets of the
window and the pattern coincide, and `0` otherwise. -/
theorem calculate_step_permutation_check (cs : List Char) (ws wsz : Int) (p : String)
    (hws : 0 ≤ ws) (hwsz : 0 < wsz) (hb : ws + wsz ≤ (cs.length : Int)) :
    (((cs.drop ws.toNat).take wsz.toNat).length ≠ p.length →
      (calculate_step (cs.map fun c => PyVal.str c.toString) ws wsz
          (some "permutation_in_string") (some p)).resultOf = some (.int 0) ∧
      (calculate_step (cs.map fun c => PyVal.str c.toString) ws wsz
          (some "permutation_in_string") (some p)).descOf
        = some ("Window \x27" ++ String.mk ((cs.drop ws.toNat).take wsz.toNat)
            ++ "\x27 (length " ++ toString ((cs.drop ws.toNat).take wsz.toNat).length
            ++ ") doesn\x27t match pattern length " ++ toString p.length)) ∧
    (((cs.drop ws.toNat).take wsz.toNat).length = p.length →
      ((((cs.drop ws.toNat).take wsz.toNat) : Multiset Char) = (p.toList : Multiset Char) →
        (calculate_step (cs.map fun c => PyVal.str c.toString) ws wsz
            (some "permutation_in_string") (some p)).resultOf = some (.int 1)) ∧
      ((((cs.drop ws.toNat).take wsz.toNat) : Multiset Char) ≠ (p.toList : Multiset Char) →
        (calculate_step (cs.map fun c => PyVal.str c.toString) ws wsz
            (some "permutation_in_string") (some p)).resultOf = some (.int 0))) := by
  rw [calculate_step_perm_eval cs ws wsz p hws hwsz hb]
  refine ⟨fun hne => ?_, fun hl => ⟨fun hperm => ?_, fun hnp => ?_⟩⟩
  · have hne' : ¬((String.mk ((cs.drop ws.toNat).take wsz.toNat)).length = p.length) := hne
    rw [if_neg hne']
    exact ⟨rfl, rfl⟩
  · have hl' : (String.mk ((cs.drop ws.toNat).take wsz.toNat)).length = p.length := hl
    have hperm' : ((String.mk ((cs.drop ws.toNat).take wsz.toNat)).toList : Multiset Char)
        = (p.toList : Multiset Char) := hperm
    rw [if_pos hl', if_pos hperm']
    rfl
  · have hl' : (String.mk ((cs.drop ws.toNat).take wsz.toNat)).length = p.length := hl
    have hnp' : ¬(((String.mk ((cs.drop ws.toNat).take wsz.toNat)).toList : Multiset Char)
        = (p.toList : Multiset Char)) := hnp
    rw [if_pos hl', if_neg hnp']
    rfl

/-- Witness for C4: window `"ab"` against pattern `"ba"` (a permutation,
result 1) and against pattern `"xyz"` (length mismatch, result 0). -/
theorem calculate_step_permutation_check_witness :
    (calculate_step ((['a','b'] : List Char).map fun c => PyVal.str c.toString) 0 2
        (some "permutation_in_string") (some "ba")).resultOf = some (.int 1) ∧
    (calculate_step ((['a','b'] : List Char).map fun c => PyVal.str c.toString) 0 2
        (some "permutation_in_string") (some "xyz")).resultOf = some (.int 0) := by
  constructor
  · exact ((calculate_step_permutation_check ['a','b'] 0 2 "ba"
      (by decide) (by decide) (by decide)).2 (by decide)).1 (by decide)
  · exact ((calculate_step_permutation_check ['a','b'] 0 2 "xyz"
      (by decide) (by decide) (by decide)).1 (by decide)).1

theorem calculate_step_longest_eval (cs : List Char) (ws wsz : Int)
    (hws : 0 ≤ ws) (hwsz : 0 < wsz) (hb : ws + wsz ≤ (cs.length : Int)) :
    calculate_step (cs.map fun c => PyVal.str c.toString) ws wsz
        (some "longest_substring") none
      = if (charWin cs ws wsz).dedup.length = (charWin cs ws wsz).length then
          .ok (.int ((charWin cs ws wsz).length : Int)) (charWin cs ws wsz)
            ("Window \x27" ++ String.mk ((cs.drop ws.toNat).take wsz.toNat)
              ++ "\x27 has no repeating characters. Length: "
              ++ toString (charWin cs ws wsz).length)
        else
          .ok (.int 0) (charWin cs ws wsz)
            ("Window \x27" ++ String.mk ((cs.drop ws.toNat).take wsz.toNat)
              ++ "\x27 has repeating characters: "
              ++ joinComma ((dupScan [] (charWin cs ws wsz)).dedup.map PyVal.toStr)) := by
  have hlne : cs ≠ [] := by
    intro h
    subst h
    simp at hb
    omega
  have h1 : ¬((cs.map fun c => PyVal.str c.toString) = [] ∨ ws < 0 ∨ wsz ≤ 0) := by
    simp [hlne]
    omega
  have h2 : ¬((((cs.map fun c => PyVal.str c.toString).length : Nat) : Int) < ws + wsz) := by
    simp
    omega
  have hwin : ((cs.map fun c => PyVal.str c.toString).drop ws.toNat).take wsz.toNat
      = charWin cs ws wsz := by
    simp [charWin, List.map_take, List.map_drop]
  simp only [calculate_step, if_neg h1, if_neg h2]
  rw [hwin, charWin, pyJoin_map_char]
  rfl

/-- C5: in the no-repeat check, the result is the window's length when
all its elements are pairwise distinct, and `0` otherwise; the
duplicate-case description enumerates, without repetition, exactly the
window elements occurring at least twice. -/
theorem calculate_step_no_repeat_check (cs : List Char) (ws wsz : Int)
    (hws : 0 ≤ ws) (hwsz : 0 < wsz) (hb : ws + wsz ≤ (cs.length : Int)) :
    (((cs.drop ws.toNat).take wsz.toNat).Nodup →
      (calculate_step (cs.map fun c => PyVal.str c.toString) ws wsz
          (some "longest_substring") none).resultOf
        = some (.int (((cs.drop ws.toNat).take wsz.toNat).length : Int))) ∧
    (¬ ((cs.drop ws.toNat).take wsz.toNat).Nodup →
      (calculate_step (cs.map fun c => PyVal.str c.toString) ws wsz
          (some "longest_substring") none).resultOf = some (.int 0) ∧
      ∃ ds : List PyVal,
        (calculate_step (cs.map fun c => PyVal.str c.toString) ws wsz
            (some "longest_substring") none).descOf
          = some ("Window \x27" ++ String.mk ((cs.drop ws.toNat).take wsz.toNat)
              ++ "\x27 has repeating characters: " ++ joinComma (ds.map PyVal.toStr)) ∧
        ds.Nodup ∧
        ∀ c : Char, (PyVal.str c.toString ∈ ds ↔
          2 ≤ ((cs.drop ws.toNat).take wsz.toNat).count c)) := by
  rw [calculate_step_longest_eval cs ws wsz hws hwsz hb]
  have hnd : (charWin cs ws wsz).dedup.length = (charWin cs ws wsz).length
      ↔ ((cs.drop ws.toNat).take wsz.toNat).Nodup := by
    rw [dedup_length_eq_iff]
    exact List.nodup_map_iff charWin_inj
  constructor
  · intro h
    rw [if_pos (hnd.mpr h)]
    simp [StepResponse.resultOf, charWin]
  · intro h
    rw [if_neg (fun hc => h (hnd.mp hc))]
    refine ⟨rfl, (dupScan [] (charWin cs ws wsz)).dedup, rfl, List.nodup_dedup _, ?_⟩
    intro c
    rw [List.mem_dedup, mem_dupScan]
    simp only [List.not_mem_nil, false_and, false_or]
    rw [charWin, List.count_map_of_injective _ _ charWin_inj]

/-- Witness for C5 at `sequence=['a','b','a'], start=0, size=3`
(spec Scenario 4): result `0`, with `'a'` the enumerated repeat. -/
theorem calculate_step_no_repeat_check_witness :
    (calculate_step ((['a','b','a'] : List Char).map fun c => PyVal.str c.toString) 0 3
        (some "longest_substring") none).resultOf = some (.int 0) ∧
    (PyVal.str "a" ∈ (dupScan [] (charWin ['a','b','a'] 0 3)).dedup
      ∧ (dupScan [] (charWin ['a','b','a'] 0 3)).dedup.Nodup) := by
  constructor
  · exact ((calculate_step_no_repeat_check ['a','b','a'] 0 3
      (by decide) (by decide) (by decide)).2 (by decide)).1
  · exact ⟨by decide, by decide⟩

/-! ### Variable-window target-sum search (code-template algorithm) -/

/-- The `while current_sum > target and left <= right` shrink loop of
`variable_window_sum_target`.  The fuel argument only bounds the
iteration count; every call supplies at least `right + 1` units, which
is more than the loop can consume because `left` grows by one per
iteration and the guard requires `left <= right`. -/
def vwstShrink (arr : List Int) (target : Int) (right : Nat) :
    Nat → Int → Nat → Int × Nat
  | 0, cs, left => (cs, left)
  | fuel + 1, cs, left =>
    if target < cs ∧ left ≤ right then
      vwstShrink arr target right fuel (cs - arr.getD left 0) (left + 1)
    else (cs, left)

/-- One iteration of the `for right in range(len(arr))` loop of
`variable_window_sum_target`: add `arr[right]`, shrink, and return the
window `arr[left:right+1]` as soon as its sum hits the target.  The
`Sum.inr` state models Python's early `return`. -/
def vwstStep (arr : List Int) (target : Int) :
    (Int × Nat) ⊕ List Int → Nat → (Int × Nat) ⊕ List Int
  | Sum.inl (cs, left), right =>
    let p := vwstShrink arr target right (right + 1) (cs + arr.getD right 0) left
    if p.1 = target then Sum.inr ((arr.drop p.2).take (right + 1 - p.2))
    else Sum.inl (p.1, p.2)
  | Sum.inr w, _ => Sum.inr w

/-- Shallow embedding of the `variable_window_sum_target` template
(src/app.py lines 1601-1618): two-pointer scan returning the first
window whose running sum equals the target, `none` when the scan
finishes without a match. -/
def variable_window_sum_target (arr : List Int) (target : Int) : Option (List Int) :=
  match (List.range arr.length).foldl (vwstStep arr target) (Sum.inl (0, 0)) with
  | Sum.inr w => some w
  | Sum.inl _ => none

theorem slice_cons (arr : List Int) (l r : Nat) (hlr : l ≤ r) (hr : r < arr.length) :
    (arr.drop l).take (r + 1 - l)
      = arr.getD l 0 :: (arr.drop (l + 1)).take (r + 1 - (l + 1)) := by
  have hl : l < arr.length := lt_of_le_of_lt hlr hr
  rw [List.drop_eq_getElem_cons hl, show r + 1 - l = (r - l) + 1 by omega,
    List.take_succ_cons, List.getD_eq_getElem arr 0 hl]
  congr 2
  omega

theorem slice_snoc (arr : List Int) (l r : Nat) (hlr : l ≤ r) (hr : r < arr.length) :
    (arr.drop l).take (r + 1 - l)
      = (arr.drop l).take (r - l) ++ [arr.getD r 0] := by
  rw [show r + 1 - l = (r - l) + 1 by omega, List.take_succ, List.getElem?_drop,
    show l + (r - l) = r by omega, List.getElem?_eq_getElem hr,
    List.getD_eq_getElem arr 0 hr]
  rfl

theorem vwstShrink_spec (arr : List Int) (target : Int) (right : Nat)
    (hr : right < arr.length) :
    ∀ (fuel : Nat) (cs : Int) (left : Nat), left ≤ right + 1 →
      cs = ((arr.drop left).take (right + 1 - left)).sum →
      (vwstShrink arr target right fuel cs left).2 ≤ right + 1 ∧
      (vwstShrink arr target right fuel cs left).1
        = ((arr.drop (vwstShrink arr target right fuel cs left).2).take
            (right + 1 - (vwstShrink arr target right fuel cs left).2)).sum := by
  intro fuel
  induction fuel with
  | zero => exact fun cs left h1 h2 => ⟨h1, h2⟩
  | succ n ih =>
    intro cs left h1 h2
    by_cases hc : target < cs ∧ left ≤ right
    · rw [vwstShrink, if_pos hc]
      refine ih (cs - arr.getD left 0) (left + 1) (by omega) ?_
      rw [h2, slice_cons arr left right hc.2 hr]
      simp [List.sum_cons]
    · rw [vwstShrink, if_neg hc]
      exact ⟨h1, h2⟩

/-- The loop invariant of the scan: a live `inl` state after `n` steps
carries the sum of `arr[left:n]`; a returned `inr` window is a slice of
`arr` summing to the target. -/
def vwstInv (arr : List Int) (target : Int) : (Int × Nat) ⊕ List Int → Nat → Prop
  | Sum.inl (cs, left), n =>
      left ≤ n ∧ cs = ((arr.drop left).take (n - left)).sum
  | Sum.inr w, _ =>
      ∃ l r : Nat, l ≤ r + 1 ∧ r < arr.length ∧
        w = (arr.drop l).take (r + 1 - l) ∧
        ((arr.drop l).take (r + 1 - l)).sum = target

theorem vwstStep_inv (arr : List Int) (target : Int) (st : (Int × Nat) ⊕ List Int)
    (n : Nat) (hn : n < arr.length) (h : vwstInv arr target st n) :
    vwstInv arr target (vwstStep arr target st n) (n + 1) := by
  match st with
  | Sum.inr w => exact h
  | Sum.inl (cs, left) =>
    obtain ⟨hle, hcs⟩ := h
    have hsum : cs + arr.getD n 0 = ((arr.drop left).take (n + 1 - left)).sum := by
      rw [slice_snoc arr left n hle hn, List.sum_append, List.sum_cons, List.sum_nil, hcs]
      ring
    obtain ⟨hp2, hp1⟩ := vwstShrink_spec arr target n hn (n + 1)
      (cs + arr.getD n 0) left (by omega) hsum
    rw [vwstStep]
    by_cases hfound :
        (vwstShrink arr target n (n + 1) (cs + arr.getD n 0) left).1 = target
    · rw [if_pos hfound]
      exact ⟨_, n, hp2, hn, rfl, by rw [← hp1, hfound]⟩
    · rw [if_neg hfound]
      exact ⟨hp2, by rw [hp1]⟩

theorem vwst_foldl_inv (arr : List Int) (target : Int) :
    ∀ n, n ≤ arr.length →
      vwstInv arr target
        ((List.range n).foldl (vwstStep arr target) (Sum.inl (0, 0))) n := by
  intro n
  induction n with
  | zero => exact fun _ => ⟨le_refl 0, by simp⟩
  | succ m ih =>
    intro hm
    rw [List.range_succ, List.foldl_append]
    exact vwstStep_inv arr target _ m (by omega) (ih (by omega))

/-- C3: the target-sum variable-window scan (expand right, shrink from
the left while the sum exceeds the target, return on first hit) only
ever returns a contiguous slice of the input whose sum equals the
target, and returns the `none` sentinel — not an error — when the scan
finds no match; on `[1..8]` with target `15` it returns the
leftmost-starting match `[1,2,3,4,5]` found by the scan order. -/
theorem variable_window_sum_target_sound (arr : List Int) (target : Int) :
    (variable_window_sum_target arr target = none ∨
      ∃ l r : Nat, l ≤ r + 1 ∧ r < arr.length ∧
        variable_window_sum_target arr target = some ((arr.drop l).take (r + 1 - l)) ∧
        ((arr.drop l).take (r + 1 - l)).sum = target) ∧
    variable_window_sum_target [1, 2, 3, 4, 5, 6, 7, 8] 15 = some [1, 2, 3, 4, 5] := by
  constructor
  · have h := vwst_foldl_inv arr target arr.length (le_refl _)
    unfold variable_window_sum_target
    match hst : (List.range arr.length).foldl (vwstStep arr target) (Sum.inl (0, 0)) with
    | Sum.inl p => exact Or.inl rfl
    | Sum.inr w =>
      rw [hst] at h
      obtain ⟨l, r, h1, h2, h3, h4⟩ := h
      exact Or.inr ⟨l, r, h1, h2, by rw [h3], h4⟩
  · decide

/-! ### Sliding-window maximum (monotonic deque, code-template algorithm) -/

/-- One iteration of the `for i in range(len(arr))` loop of
`sliding_window_maximum`: drop front indices that left the window
(`dq[0] <= i - k`), drop rear indices whose value is at most `arr[i]`,
append `i`, and record `arr[dq[0]]` once the first window is complete
(`i >= k - 1`, rendered overflow-safely as `k <= i + 1`). -/
def swmStep (arr : List Int) (k : Nat) (st : List Nat × List Int) (i : Nat) :
    List Nat × List Int :=
  let dq1 := st.1.dropWhile (fun j => decide (j + k ≤ i))
  let dq2 := (dq1.reverse.dropWhile (fun j => decide (arr.getD j 0 ≤ arr.getD i 0))).reverse
  let dq3 := dq2 ++ [i]
  (dq3, if k ≤ i + 1 then st.2 ++ [arr.getD (dq3.headD 0) 0] else st.2)

/-- Shallow embedding of the `sliding_window_maximum` template
(src/app.py lines 1469-1495). -/
def sliding_window_maximum (arr : List Int) (k : Nat) : List Int :=
  if arr.length < k then []
  else ((List.range arr.length).foldl (swmStep arr k) ([], [])).2

/-- The deque contents after `p` processed indices: the indices
`j < p` still inside the window at step `p - 1` whose value strictly
dominates every later processed value. -/
def dqSpec (arr : List Int) (k p : Nat) : List Nat :=
  (List.range p).filter
    (fun j => decide (p ≤ j + k ∧ ∀ l, l < p → j < l → arr.getD l 0 < arr.getD j 0))

/-- The outputs after `p` processed indices: one entry per complete
window end `e < p`. -/
def resSpec (arr : List Int) (k p : Nat) : List Int :=
  (List.range p).filterMap
    (fun e => if k ≤ e + 1 then some (arr.getD ((dqSpec arr k (e + 1)).headD 0) 0) else none)

theorem mem_dqSpec (arr : List Int) (k p j : Nat) :
    j ∈ dqSpec arr k p ↔
      j < p ∧ p ≤ j + k ∧ ∀ l, l < p → j < l → arr.getD l 0 < arr.getD j 0 := by
  simp [dqSpec, List.mem_filter, List.mem_range, and_assoc]

theorem dqSpec_sorted (arr : List Int) (k p : Nat) :
    (dqSpec arr k p).Pairwise (· < ·) :=
  (List.sorted_lt_range p).filter _

theorem dqSpec_decreasing (arr : List Int) (k p : Nat) :
    (dqSpec arr k p).Pairwise (fun a b => arr.getD b 0 < arr.getD a 0) := by
  refine (dqSpec_sorted arr k p).imp_of_mem ?_
  intro a b ha hb hab
  obtain ⟨-, -, hprop⟩ := (mem_dqSpec arr k p a).mp ha
  obtain ⟨hbp, -, -⟩ := (mem_dqSpec arr k p b).mp hb
  exact hprop b hbp hab

/-- On a `Pairwise R` list whose predicate is closed leftward along `R`
(if it holds at `b` it holds at every `R`-predecessor `a`), the
front-popping loop removes exactly the elements satisfying the
predicate. -/
theorem dropWhile_eq_filter_of_pairwise {α : Type} (R : α → α → Prop) :
    ∀ (l : List α) (q : α → Bool), l.Pairwise R →
      (∀ a b, R a b → q b = true → q a = true) →
      l.dropWhile q = l.filter (fun x => !q x) := by
  intro l
  induction l with
  | nil => intro q _ _; rfl
  | cons x xs ih =>
    intro q hp hmono
    rcases List.pairwise_cons.mp hp with ⟨hx, hxs⟩
    by_cases hqx : q x = true
    · rw [List.dropWhile_cons_of_pos hqx, List.filter_cons_of_neg (by simp [hqx]),
        ih q hxs hmono]
    · have hall : ∀ y ∈ xs, (!q y) = true := by
        intro y hy
        simp only [Bool.not_eq_true']
        rcases Bool.eq_false_or_eq_true (q y) with h | h
        · exact absurd (hmono x y (hx y hy) h) hqx
        · exact h
      rw [List.dropWhile_cons_of_neg hqx,
        List.filter_cons_of_pos (by simp [hqx]), List.filter_eq_self.mpr hall]

/-- C2 counterexample: at `k = 0` (where `length(arr) >= k` always
holds) the algorithm emits one output per index, so on `[5]` the output
has length `1`, not `length - k + 1 = 2`. -/
theorem sliding_window_maximum_counterexample :
    (0 ≤ ([5] : List Int).length) ∧
    (sliding_window_maximum ([5] : List Int) 0).length ≠ ([5] : List Int).length - 0 + 1 := by
  constructor
  · decide
  · decide

theorem dqSpec_succ (arr : List Int) (k p : Nat) (hk : 1 ≤ k) :
    dqSpec arr k (p + 1)
      = (dqSpec arr k p).filter
          (fun j => !decide (arr.getD j 0 ≤ arr.getD p 0) && !decide (j + k ≤ p)) ++ [p] := by
  unfold dqSpec
  rw [List.range_succ, List.filter_append, List.filter_filter]
  congr 1
  · refine List.filter_congr ?_
    intro j hj
    rw [List.mem_range] at hj
    have hiff : (p + 1 ≤ j + k ∧ ∀ l, l < p + 1 → j < l → arr.getD l 0 < arr.getD j 0)
        ↔ ((¬(arr.getD j 0 ≤ arr.getD p 0) ∧ ¬(j + k ≤ p)) ∧
            (p ≤ j + k ∧ ∀ l, l < p → j < l → arr.getD l 0 < arr.getD j 0)) := by
      constructor
      · rintro ⟨h1, h2⟩
        have hjp : arr.getD p 0 < arr.getD j 0 := h2 p (by omega) hj
        exact ⟨⟨not_le.mpr hjp, by omega⟩, by omega, fun l hl hjl => h2 l (by omega) hjl⟩
      · rintro ⟨⟨h1, h2⟩, h3, h4⟩
        refine ⟨by omega, ?_⟩
        intro l hl hjl
        rcases Nat.lt_succ_iff_lt_or_eq.mp hl with h | h
        · exact h4 l h hjl
        · subst h
          exact not_le.mp h1
    simp only [← decide_not, ← Bool.decide_and]
    exact decide_eq_decide.mpr hiff
  · have hp : decide (p + 1 ≤ p + k ∧ ∀ l, l < p + 1 → p < l → arr.getD l 0 < arr.getD p 0)
        = true := by
      refine decide_eq_true ⟨by omega, ?_⟩
      intro l hl hpl
      omega
    simp [List.filter_cons, hp]
    exact ⟨hk, fun x hx hpx => absurd hx (by omega)⟩

theorem resSpec_succ (arr : List Int) (k p : Nat) :
    resSpec arr k (p + 1) = resSpec arr k p ++
      (if k ≤ p + 1 then [arr.getD ((dqSpec arr k (p + 1)).headD 0) 0] else []) := by
  unfold resSpec
  rw [List.range_succ, List.filterMap_append]
  congr 1
  by_cases h : k ≤ p + 1
  · simp [h]
  · simp [h]

theorem swmStep_spec (arr : List Int) (k p : Nat) (hk : 1 ≤ k) :
    swmStep arr k (dqSpec arr k p, resSpec arr k p) p
      = (dqSpec arr k (p + 1), resSpec arr k (p + 1)) := by
  have hd1 : (dqSpec arr k p).dropWhile (fun j => decide (j + k ≤ p))
      = (dqSpec arr k p).filter (fun j => !decide (j + k ≤ p)) := by
    refine dropWhile_eq_filter_of_pairwise (· < ·) _ _ (dqSpec_sorted arr k p) ?_
    intro a b hab hb
    simp only [decide_eq_true_eq] at hb ⊢
    omega
  have hD1sorted : ((dqSpec arr k p).filter (fun j => !decide (j + k ≤ p))).Pairwise
      (fun a b => arr.getD b 0 < arr.getD a 0) :=
    (dqSpec_decreasing arr k p).filter _
  have hrev : ((dqSpec arr k p).filter (fun j => !decide (j + k ≤ p))).reverse.Pairwise
      (fun a b => arr.getD a 0 < arr.getD b 0) :=
    List.pairwise_reverse.mpr hD1sorted
  have hd2 : ((dqSpec arr k p).filter (fun j => !decide (j + k ≤ p))).reverse.dropWhile
        (fun j => decide (arr.getD j 0 ≤ arr.getD p 0))
      = (((dqSpec arr k p).filter (fun j => !decide (j + k ≤ p))).filter
          (fun j => !decide (arr.getD j 0 ≤ arr.getD p 0))).reverse := by
    rw [dropWhile_eq_filter_of_pairwise (fun a b => arr.getD a 0 < arr.getD b 0) _ _ hrev ?_,
      List.filter_reverse]
    intro a b hab hb
    simp only [decide_eq_true_eq] at hb ⊢
    exact le_trans (le_of_lt hab) hb
  have hdq3 : ((dqSpec arr k p).filter (fun j => !decide (j + k ≤ p))).filter
          (fun j => !decide (arr.getD j 0 ≤ arr.getD p 0)) ++ [p]
      = dqSpec arr k (p + 1) := by
    rw [dqSpec_succ arr k p hk, List.filter_filter]
  unfold swmStep
  simp only [hd1, hd2, List.reverse_reverse, hdq3]
  refine Prod.ext rfl ?_
  rw [resSpec_succ arr k p]
  by_cases h : k ≤ p + 1
  · rw [if_pos h, if_pos h]
  · rw [if_neg h, if_neg h, List.append_nil]

theorem swm_foldl (arr : List Int) (k : Nat) (hk : 1 ≤ k) :
    ∀ p, (List.range p).foldl (swmStep arr k) ([], []) = (dqSpec arr k p, resSpec arr k p) := by
  intro p
  induction p with
  | zero => rfl
  | succ m ih =>
    rw [List.range_succ, List.foldl_append, ih, List.foldl_cons, List.foldl_nil]
    exact swmStep_spec arr k m hk

theorem dqSpec_head_max (arr : List Int) (k : Nat) (hk : 1 ≤ k) (e : Nat) :
    (e + 1 - k ≤ (dqSpec arr k (e + 1)).headD 0 ∧ (dqSpec arr k (e + 1)).headD 0 ≤ e) ∧
    ∀ l, e + 1 - k ≤ l → l ≤ e →
      arr.getD l 0 ≤ arr.getD ((dqSpec arr k (e + 1)).headD 0) 0 := by
  have hne : e ∈ dqSpec arr k (e + 1) :=
    (mem_dqSpec arr k (e + 1) e).mpr ⟨by omega, by omega, fun l hl hel => absurd hl (by omega)⟩
  obtain ⟨j0, tl, hcons⟩ : ∃ j0 tl, dqSpec arr k (e + 1) = j0 :: tl := by
    cases hd : dqSpec arr k (e + 1) with
    | nil =>
      rw [hd] at hne
      cases hne
    | cons a tl => exact ⟨a, tl, rfl⟩
  have hhead : (dqSpec arr k (e + 1)).headD 0 = j0 := by
    rw [hcons]
    rfl
  have hj0mem : j0 ∈ dqSpec arr k (e + 1) := by
    rw [hcons]
    exact List.mem_cons_self j0 tl
  obtain ⟨hj0lt, hj0k, hj0prop⟩ := (mem_dqSpec arr k (e + 1) j0).mp hj0mem
  have hleast : ∀ x ∈ dqSpec arr k (e + 1), j0 ≤ x := by
    intro x hx
    rw [hcons] at hx
    rcases List.mem_cons.mp hx with h | h
    · omega
    · have hsort := dqSpec_sorted arr k (e + 1)
      rw [hcons] at hsort
      exact le_of_lt ((List.pairwise_cons.mp hsort).1 x h)
  have key : ∀ d l, e - l = d → e + 1 - k ≤ l → l ≤ e → arr.getD l 0 ≤ arr.getD j0 0 := by
    intro d
    induction d using Nat.strong_induction_on with
    | _ d ih =>
      intro l hd h1 h2
      by_cases hmem : l ∈ dqSpec arr k (e + 1)
      · have hj0l : j0 ≤ l := hleast l hmem
        rcases Nat.eq_or_lt_of_le hj0l with h | h
        · rw [← h]
        · exact le_of_lt (hj0prop l (by omega) h)
      · rw [mem_dqSpec] at hmem
        push_neg at hmem
        obtain ⟨l', hl', hll', hge⟩ := hmem (by omega) (by omega)
        exact le_trans hge (ih (e - l') (by omega) l' rfl (by omega) (by omega))
  rw [hhead]
  exact ⟨⟨by omega, by omega⟩, fun l h1 h2 => key (e - l) l rfl h1 h2⟩

theorem resSpec_eq_map (arr : List Int) (k : Nat) (hk : 1 ≤ k) :
    ∀ p, resSpec arr k p
      = (List.range' (k - 1) (p + 1 - k)).map
          (fun e => arr.getD ((dqSpec arr k (e + 1)).headD 0) 0) := by
  intro p
  induction p with
  | zero =>
    rw [show 0 + 1 - k = 0 by omega]
    rfl
  | succ m ih =>
    rw [resSpec_succ, ih]
    by_cases h : k ≤ m + 1
    · rw [if_pos h, show m + 1 + 1 - k = (m + 1 - k) + 1 by omega, List.range'_concat,
        List.map_append]
      simp only [List.map_cons, List.map_nil]
      rw [show k - 1 + 1 * (m + 1 - k) = m by omega]
    · rw [if_neg h, List.append_nil, show m + 1 + 1 - k = 0 by omega,
        show m + 1 - k = 0 by omega]

theorem mem_slice_iff (arr : List Int) (i k : Nat) (hik : i + k ≤ arr.length) (x : Int) :
    x ∈ (arr.drop i).take k ↔ ∃ m, m < k ∧ arr.getD (i + m) 0 = x := by
  constructor
  · intro hx
    obtain ⟨m, hm, hget⟩ := List.mem_iff_getElem.mp hx
    have hmlt : m < k := by
      have h2 := hm
      rw [List.length_take, List.length_drop] at h2
      omega
    refine ⟨m, hmlt, ?_⟩
    rw [← hget, List.getElem_take, List.getElem_drop,
      List.getD_eq_getElem arr 0 (by omega)]
  · rintro ⟨m, hm, rfl⟩
    apply List.mem_iff_getElem.mpr
    have hlt : m < ((arr.drop i).take k).length := by
      rw [List.length_take, List.length_drop]
      omega
    refine ⟨m, hlt, ?_⟩
    rw [List.getElem_take, List.getElem_drop, List.getD_eq_getElem arr 0 (by omega)]

/-- C2 (amended to window sizes `k >= 1`, where a `k`-length window
maximum is defined): the monotonic-deque sliding maximum returns `[]`
when `length(arr) < k`, and otherwise one value per window position in
left-to-right order — `length(arr) - k + 1` outputs, the `i`-th being
the true maximum of `arr[i : i + k]`. -/
theorem sliding_window_maximum_correct (arr : List Int) (k : Nat) (hk : 1 ≤ k) :
    (arr.length < k → sliding_window_maximum arr k = []) ∧
    (k ≤ arr.length →
      (sliding_window_maximum arr k).length = arr.length - k + 1 ∧
      ∀ i, i < arr.length - k + 1 →
        (sliding_window_maximum arr k).getD i 0 ∈ (arr.drop i).take k ∧
        ∀ x ∈ (arr.drop i).take k, x ≤ (sliding_window_maximum arr k).getD i 0) := by
  constructor
  · intro h
    unfold sliding_window_maximum
    rw [if_pos h]
  · intro hkn
    have hswm : sliding_window_maximum arr k
        = (List.range' (k - 1) (arr.length + 1 - k)).map
            (fun e => arr.getD ((dqSpec arr k (e + 1)).headD 0) 0) := by
      unfold sliding_window_maximum
      rw [if_neg (by omega), swm_foldl arr k hk, resSpec_eq_map arr k hk]
    have hlen : (sliding_window_maximum arr k).length = arr.length - k + 1 := by
      rw [hswm, List.length_map, List.length_range']
      omega
    refine ⟨hlen, ?_⟩
    intro i hi
    have hidx : (sliding_window_maximum arr k).getD i 0
        = arr.getD ((dqSpec arr k ((k - 1 + i) + 1)).headD 0) 0 := by
      rw [hswm]
      have hilen : i < (List.range' (k - 1) (arr.length + 1 - k)).length := by
        rw [List.length_range']
        omega
      rw [List.getD_eq_getElem _ _ (by rw [List.length_map]; exact hilen),
        List.getElem_map, List.getElem_range']
      rw [show k - 1 + 1 * i = k - 1 + i by omega]
    obtain ⟨⟨hlb, hub⟩, hbd⟩ := dqSpec_head_max arr k hk (k - 1 + i)
    have hei : k - 1 + i + 1 - k = i := by omega
    have hik : i + k ≤ arr.length := by omega
    rw [hei] at hlb hbd
    constructor
    · rw [hidx]
      refine (mem_slice_iff arr i k hik _).mpr
        ⟨(dqSpec arr k (k - 1 + i + 1)).headD 0 - i, by omega, by rw [show
          i + ((dqSpec arr k (k - 1 + i + 1)).headD 0 - i)
            = (dqSpec arr k (k - 1 + i + 1)).headD 0 by omega]⟩
    · intro x hx
      rw [hidx]
      obtain ⟨m, hm, rfl⟩ := (mem_slice_iff arr i k hik x).mp hx
      exact hbd (i + m) (by omega) (by omega)

/-- Witness for the amended C2 at `arr=[1,3,2], k=2`: two outputs. -/
theorem sliding_window_maximum_correct_witness :
    (sliding_window_maximum ([1, 3, 2] : List Int) 2).length
      = ([1, 3, 2] : List Int).length - 2 + 1 :=
  ((sliding_window_maximum_correct [1, 3, 2] 2 (by decide)).2 (by decide)).1

/-! ### Longest subarray with average >= threshold (code-template algorithm) -/

/-- Shallow embedding of the `variable_window_average_threshold`
template (src/app.py lines 1705-1721): brute-force double loop over all
start/end positions, keeping the window whenever its average reaches
the threshold and it is strictly longer than the best so far.  The
Python float average is modelled exactly with `Rat`. -/
def variable_window_average_threshold (arr : List Int) (threshold : Rat) :
    List Int × Nat :=
  (List.range arr.length).foldl
    (fun st s =>
      ((List.range' s (arr.length - s)).foldl
        (fun st2 e =>
          let cs := st2.1 + arr.getD e 0
          let len := e - s + 1
          if threshold ≤ (cs : Rat) / (len : Rat) ∧ st2.2.2 < len then
            (cs, ((arr.drop s).take len, len))
          else (cs, st2.2))
        (0, st)).2)
    ([], 0)

/-- The window at start `s`, end `e` qualifies: its average is at least
the threshold. -/
def Qual (arr : List Int) (θ : Rat) (s l : Nat) : Prop :=
  θ ≤ ((((arr.drop s).take l).sum : Int) : Rat) / ((l : Nat) : Rat)

/-- The inner-loop body with the running sum replaced by the slice sum:
update `(best, maxlen)` when the window `arr[s:e+1]` qualifies and is
strictly longer than `maxlen`. -/
def vwatUpd (arr : List Int) (θ : Rat) (s : Nat) (st : List Int × Nat) (e : Nat) :
    List Int × Nat :=
  let len := e - s + 1
  if θ ≤ ((((arr.drop s).take len).sum : Int) : Rat) / ((len : Nat) : Rat) ∧ st.2 < len then
    ((arr.drop s).take len, len)
  else st

theorem vwat_inner_sum (arr : List Int) (θ : Rat) (s : Nat) :
    ∀ (m t : Nat) (st : List Int × Nat) (cs : Int),
      s ≤ t → t + m ≤ arr.length → cs = ((arr.drop s).take (t - s)).sum →
      ((List.range' t m).foldl
        (fun st2 e =>
          let cs2 := st2.1 + arr.getD e 0
          let len := e - s + 1
          if θ ≤ (cs2 : Rat) / (len : Rat) ∧ st2.2.2 < len then
            (cs2, ((arr.drop s).take len, len))
          else (cs2, st2.2))
        (cs, st)).2
      = (List.range' t m).foldl (vwatUpd arr θ s) st := by
  intro m
  induction m with
  | zero =>
    intro t st cs h1 h2 h3
    rfl
  | succ m ih =>
    intro t st cs h1 h2 h3
    have hcs2 : cs + arr.getD t 0 = ((arr.drop s).take (t - s + 1)).sum := by
      rw [show t - s + 1 = t + 1 - s by omega, slice_snoc arr s t h1 (by omega),
        List.sum_append, List.sum_cons, List.sum_nil, h3]
      ring
    set f := (fun (st2 : Int × (List Int × Nat)) e =>
      let cs2 := st2.1 + arr.getD e 0
      let len := e - s + 1
      if θ ≤ (cs2 : Rat) / (len : Rat) ∧ st2.2.2 < len then
        (cs2, ((arr.drop s).take len, len))
      else (cs2, st2.2)) with hf
    have key : f (cs, st) t
        = (((arr.drop s).take (t - s + 1)).sum, vwatUpd arr θ s st t) := by
      rw [hf]
      show (if θ ≤ ((cs + arr.getD t 0 : Int) : Rat) / ((t - s + 1 : Nat) : Rat)
              ∧ st.2 < t - s + 1 then
            ((cs + arr.getD t 0), ((arr.drop s).take (t - s + 1), t - s + 1))
          else ((cs + arr.getD t 0), st))
        = (((arr.drop s).take (t - s + 1)).sum, vwatUpd arr θ s st t)
      rw [hcs2, vwatUpd]
      split_ifs with h
      · rfl
      · rfl
    rw [List.range'_succ, List.foldl_cons, List.foldl_cons, key]
    have ih2 := ih (t + 1) (vwatUpd arr θ s st t)
      (((arr.drop s).take (t - s + 1)).sum) (by omega) (by omega)
      (by rw [show t + 1 - s = t - s + 1 by omega])
    rw [hf] at ih2
    exact ih2

theorem vwat_eq_spec_fold (arr : List Int) (θ : Rat) :
    variable_window_average_threshold arr θ
      = (List.range arr.length).foldl
          (fun st s => (List.range' s (arr.length - s)).foldl (vwatUpd arr θ s) st)
          ([], 0) := by
  unfold variable_window_average_threshold
  have hgen : ∀ (L : List Nat) (st : List Int × Nat), (∀ s ∈ L, s ≤ arr.length) →
      L.foldl
        (fun st s =>
          ((List.range' s (arr.length - s)).foldl
            (fun st2 e =>
              let cs := st2.1 + arr.getD e 0
              let len := e - s + 1
              if θ ≤ (cs : Rat) / (len : Rat) ∧ st2.2.2 < len then
                (cs, ((arr.drop s).take len, len))
              else (cs, st2.2))
            (0, st)).2) st
      = L.foldl
          (fun st s => (List.range' s (arr.length - s)).foldl (vwatUpd arr θ s) st) st := by
    intro L
    induction L with
    | nil => intro st _; rfl
    | cons a L ihL =>
      intro st hL
      rw [List.foldl_cons, List.foldl_cons,
        vwat_inner_sum arr θ a (arr.length - a) a st 0 (le_refl a)
          (by have := hL a (List.mem_cons_self a L); omega) (by simp)]
      exact ihL _ (fun x hx => hL x (List.mem_cons_of_mem a hx))
  exact hgen (List.range arr.length) ([], 0)
    (fun x hx => le_of_lt (List.mem_range.mp hx))

theorem vwatUpd_fold_spec (arr : List Int) (θ : Rat) (s : Nat) :
    ∀ (j : Nat) (st : List Int × Nat), s + j ≤ arr.length →
      st.2 ≤ ((List.range' s j).foldl (vwatUpd arr θ s) st).2 ∧
      (∀ l, 1 ≤ l → l ≤ j → Qual arr θ s l →
        l ≤ ((List.range' s j).foldl (vwatUpd arr θ s) st).2) ∧
      (((List.range' s j).foldl (vwatUpd arr θ s) st).2 = st.2 →
        (List.range' s j).foldl (vwatUpd arr θ s) st = st) ∧
      (st.2 < ((List.range' s j).foldl (vwatUpd arr θ s) st).2 →
        ((List.range' s j).foldl (vwatUpd arr θ s) st).1
            = (arr.drop s).take ((List.range' s j).foldl (vwatUpd arr θ s) st).2 ∧
          Qual arr θ s ((List.range' s j).foldl (vwatUpd arr θ s) st).2 ∧
          1 ≤ ((List.range' s j).foldl (vwatUpd arr θ s) st).2 ∧
          s + ((List.range' s j).foldl (vwatUpd arr θ s) st).2 ≤ arr.length) := by
  intro j
  induction j with
  | zero =>
    intro st hj
    rw [show List.range' s 0 = [] from rfl, List.foldl_nil]
    exact ⟨le_refl _, fun l h1 h2 _ => by omega, fun _ => rfl, fun h => absurd h (by omega)⟩
  | succ j ih =>
    intro st hj
    obtain ⟨iha, ihb, ihc, ihd⟩ := ih st (by omega)
    have hfold : (List.range' s (j + 1)).foldl (vwatUpd arr θ s) st
        = vwatUpd arr θ s ((List.range' s j).foldl (vwatUpd arr θ s) st) (s + j) := by
      rw [List.range'_concat, List.foldl_append, List.foldl_cons, List.foldl_nil,
        show s + 1 * j = s + j by omega]
    have hlen : s + j - s + 1 = j + 1 := by omega
    rw [hfold, vwatUpd]
    simp only [hlen]
    by_cases hc : θ ≤ ((((arr.drop s).take (j + 1)).sum : Int) : Rat) / ((j + 1 : Nat) : Rat)
        ∧ ((List.range' s j).foldl (vwatUpd arr θ s) st).2 < j + 1
    · rw [if_pos hc]
      refine ⟨by omega, fun l h1 h2 hq => ?_, fun h => absurd h (by omega), fun _ => ?_⟩
      · rcases Nat.lt_succ_iff_lt_or_eq.mp (Nat.lt_succ_of_le h2) with h | h
        · have := ihb l h1 (by omega) hq
          omega
        · omega
      · exact ⟨rfl, hc.1, by omega, by omega⟩
    · rw [if_neg hc]
      refine ⟨iha, fun l h1 h2 hq => ?_, ihc, ihd⟩
      rcases Nat.lt_succ_iff_lt_or_eq.mp (Nat.lt_succ_of_le h2) with h | h
      · exact ihb l h1 (by omega) hq
      · subst h
        rcases not_and_or.mp hc with h | h
        · exact absurd hq h
        · omega

/-- The invariant after all window starts below `s` have been scanned:
`st.2` is the maximum qualifying length among those starts, and `st.1`
is the window of the leftmost start achieving it (or `[]` when none
qualifies). -/
def vwatInv (arr : List Int) (θ : Rat) (s : Nat) (st : List Int × Nat) : Prop :=
  (∀ s' l, s' < s → 1 ≤ l → s' + l ≤ arr.length → Qual arr θ s' l → l ≤ st.2) ∧
  (st.2 = 0 → st.1 = []) ∧
  (st.2 ≠ 0 → ∃ s', s' < s ∧ s' + st.2 ≤ arr.length ∧ Qual arr θ s' st.2 ∧
    st.1 = (arr.drop s').take st.2 ∧
    ∀ t, t < s' → ¬(t + st.2 ≤ arr.length ∧ Qual arr θ t st.2))

theorem vwat_outer_inv (arr : List Int) (θ : Rat) :
    ∀ s, s ≤ arr.length →
      vwatInv arr θ s
        ((List.range s).foldl
          (fun st s' => (List.range' s' (arr.length - s')).foldl (vwatUpd arr θ s') st)
          ([], 0)) := by
  intro s
  induction s with
  | zero =>
    intro _
    exact ⟨fun s' l h => absurd h (by omega), fun _ => rfl, fun h => absurd rfl h⟩
  | succ m ih =>
    intro hm
    obtain ⟨inv1, inv2, inv3⟩ := ih (by omega)
    rw [List.range_succ, List.foldl_append, List.foldl_cons, List.foldl_nil]
    obtain ⟨speca, specb, specc, specd⟩ :=
      vwatUpd_fold_spec arr θ m (arr.length - m)
        ((List.range m).foldl
          (fun st s' => (List.range' s' (arr.length - s')).foldl (vwatUpd arr θ s') st)
          ([], 0)) (by omega)
    rcases Nat.eq_or_lt_of_le speca with heq | hlt
    · rw [specc heq.symm]
      refine ⟨fun s' l hs' h1 h2 hq => ?_, inv2, ?_⟩
      · rcases Nat.lt_succ_iff_lt_or_eq.mp hs' with h | h
        · exact inv1 s' l h h1 h2 hq
        · subst h
          have := specb l h1 (by omega) hq
          omega
      · intro hne
        obtain ⟨s', hs', hrest⟩ := inv3 hne
        exact ⟨s', by omega, hrest⟩
    · obtain ⟨hd1, hd2, hd3, hd4⟩ := specd hlt
      refine ⟨fun s' l hs' h1 h2 hq => ?_, fun h0 => absurd h0 (by omega), fun _ => ?_⟩
      · rcases Nat.lt_succ_iff_lt_or_eq.mp hs' with h | h
        · have := inv1 s' l h h1 h2 hq
          omega
        · subst h
          have := specb l h1 (by omega) hq
          omega
      · refine ⟨m, by omega, hd4, hd2, hd1, ?_⟩
        intro t ht hcontra
        have := inv1 t _ ht (by omega) hcontra.1 hcontra.2
        omega

/-- C6: the brute-force average-threshold search returns as `maxlen`
the maximum length of any window whose average reaches the threshold
(`0` with window `[]` when none does), and as `best` the window of the
*leftmost* start achieving that maximum length — a later window of
equal length never replaces the recorded best. -/
theorem variable_window_average_threshold_correct (arr : List Int) (θ : Rat) :
    (∀ s l, 1 ≤ l → s + l ≤ arr.length → Qual arr θ s l →
      l ≤ (variable_window_average_threshold arr θ).2) ∧
    ((variable_window_average_threshold arr θ).2 = 0 →
      (variable_window_average_threshold arr θ).1 = []) ∧
    ((variable_window_average_threshold arr θ).2 ≠ 0 →
      ∃ s, s + (variable_window_average_threshold arr θ).2 ≤ arr.length ∧
        Qual arr θ s (variable_window_average_threshold arr θ).2 ∧
        (variable_window_average_threshold arr θ).1
          = (arr.drop s).take (variable_window_average_threshold arr θ).2 ∧
        ∀ t, t < s → ¬(t + (variable_window_average_threshold arr θ).2 ≤ arr.length ∧
          Qual arr θ t (variable_window_average_threshold arr θ).2)) := by
  have h := vwat_outer_inv arr θ arr.length (le_refl _)
  rw [← vwat_eq_spec_fold arr θ] at h
  obtain ⟨h1, h2, h3⟩ := h
  refine ⟨fun s l hl hsl hq => h1 s l (by omega) hl hsl hq, h2, fun hne => ?_⟩
  obtain ⟨s', _, hrest⟩ := h3 hne
  exact ⟨s', hrest⟩
